import Mathlib

/-!
Verification of the kubli file-encryption tool (src/kubli.py,
src/utils/encryption.py, src/utils/decryption.py).

Embedding conventions:
- Byte strings (Python bytes) and text strings are both modelled as
  `List Nat` of byte values; a Python str is represented by its UTF-8
  byte sequence, so str.encode and bytes.decode are the identity on
  this representation.
- A directory is modelled as an association list from file name to file
  content; reads and writes resolve the first matching name, and a write
  to an absent name appends it (Python open(path, "wb") semantics of
  create-or-truncate).
- The cryptography.fernet and hashlib libraries are outside src/, so the
  cipher primitive and the hash are modelled from the spec (sections 4.1
  and 4.2): SHA-256 is an abstract function parameter, and the Fernet
  token is an idealized authenticated-encryption record, base64url
  encoded, that opens only under the sealing key.
-/

namespace Kubli

abbrev Bytes := List Nat

abbrev FS := List (Bytes × Bytes)

/-- Content of the file of the given name, resolving the first match. -/
def fsRead : FS → Bytes → Option Bytes
  | [], _ => none
  | p :: rest, n => if p.1 = n then some p.2 else fsRead rest n

/-- Write (create or truncate) a file, Python open(path, "wb") semantics. -/
def fsWrite : FS → Bytes → Bytes → FS
  | [], n, c => [(n, c)]
  | p :: rest, n, c => if p.1 = n then (n, c) :: rest else p :: fsWrite rest n c

/-- Boolean test that the first list is an initial segment of the second. -/
def startsWith : List Nat → List Nat → Bool
  | [], _ => true
  | _ :: _, [] => false
  | p :: ps, x :: xs => p == x && startsWith ps xs

/-- Boolean test that the first list is a final segment of the second. -/
def endsWith (s l : List Nat) : Bool :=
  startsWith s.reverse l.reverse

/-- ASCII lower-casing of one byte, modelling Python str.lower on the
ASCII responses read at the confirmation prompts. -/
def lowerAscii (c : Nat) : Nat :=
  if 65 ≤ c ∧ c ≤ 90 then c + 32 else c

/-- Modelled from the spec: base64 URL-safe alphabet (section 4.3),
being the character code assigned to a sextet value, as in the Python
standard base64.urlsafe_b64encode alphabet. -/
def b64char (n : Nat) : Nat :=
  if n < 26 then 65 + n
  else if n < 52 then 97 + (n - 26)
  else if n < 62 then 48 + (n - 52)
  else if n = 62 then 45
  else 95

/-- Modelled from the spec: inverse of the base64 URL-safe alphabet;
none on a character outside the alphabet. -/
def b64val (c : Nat) : Option Nat :=
  if 65 ≤ c ∧ c ≤ 90 then some (c - 65)
  else if 97 ≤ c ∧ c ≤ 122 then some (c - 97 + 26)
  else if 48 ≤ c ∧ c ≤ 57 then some (c - 48 + 52)
  else if c = 45 then some 62
  else if c = 95 then some 63
  else none

/-- Modelled from the spec: base64 URL-safe encoding of a byte sequence
with "=" (code 61) padding, as Python base64.urlsafe_b64encode. -/
def b64encBytes : List Nat → List Nat
  | [] => []
  | [a] => [b64char (a / 4), b64char (a % 4 * 16), 61, 61]
  | [a, b] => [b64char (a / 4), b64char (a % 4 * 16 + b / 16), b64char (b % 16 * 4), 61]
  | a :: b :: c :: rest =>
    b64char (a / 4) :: b64char (a % 4 * 16 + b / 16) :: b64char (b % 16 * 4 + c / 64) ::
      b64char (c % 64) :: b64encBytes rest

/-- Modelled from the spec: base64 URL-safe decoding, as Python
base64.urlsafe_b64decode on well-formed input; none on input it raises on. -/
def b64decBytes : List Nat → Option (List Nat)
  | [] => some []
  | c1 :: c2 :: c3 :: c4 :: rest =>
    match b64val c1, b64val c2 with
    | some v1, some v2 =>
      if c3 = 61 then
        if c4 = 61 ∧ rest = [] then some [v1 * 4 + v2 / 16] else none
      else
        match b64val c3 with
        | some v3 =>
          if c4 = 61 then
            if rest = [] then some [v1 * 4 + v2 / 16, v2 % 16 * 16 + v3 / 4] else none
          else
            match b64val c4, b64decBytes rest with
            | some v4, some ds =>
              some ((v1 * 4 + v2 / 16) :: (v2 % 16 * 16 + v3 / 4) :: (v3 % 4 * 64 + v4) :: ds)
            | _, _ => none
        | none => none
    | _, _ => none
  | _ => none

theorem b64val_b64char : ∀ n : Nat, n < 64 → b64val (b64char n) = some n := by
  decide

theorem b64char_lt : ∀ n : Nat, n < 64 → b64char n < 123 := by
  decide

theorem b64char_ne_61 : ∀ n : Nat, n < 64 → b64char n ≠ 61 := by
  decide

theorem b64char_ne_46 : ∀ n : Nat, n < 64 → b64char n ≠ 46 := by
  decide

theorem b64char_mod64 : ∀ n : Nat, n < 64 → b64char n % 64 ≠ 63 := by
  decide

theorem b64char_ne_95 : ∀ n : Nat, n < 64 → n ≠ 63 → b64char n ≠ 95 := by
  decide

/-- Decoding inverts encoding on byte sequences. -/
theorem b64_roundtrip (l : List Nat) (h : ∀ b ∈ l, b < 256) :
    b64decBytes (b64encBytes l) = some l := by
  induction l using b64encBytes.induct with
  | case1 =>
    simp [b64encBytes, b64decBytes]
  | case2 a =>
    have ha : a < 256 := h a (by simp)
    have e1 : a / 4 * 4 + a % 4 = a := by omega
    simp only [b64encBytes, b64decBytes]
    rw [b64val_b64char _ (by omega), b64val_b64char _ (by omega)]
    simp [e1]
  | case3 a b =>
    have ha : a < 256 := h a (by simp)
    have hb : b < 256 := h b (by simp)
    have h61 : b64char (b % 16 * 4) ≠ 61 := b64char_ne_61 _ (by omega)
    have e1 : a / 4 * 4 + (a % 4 * 16 + b / 16) / 16 = a := by omega
    have e2 : (a % 4 * 16 + b / 16) % 16 * 16 + b % 16 = b := by omega
    simp only [b64encBytes, b64decBytes]
    rw [b64val_b64char _ (by omega), b64val_b64char _ (by omega),
      b64val_b64char _ (by omega)]
    simp [h61, e1, e2]
  | case4 a b c rest ih =>
    have ha : a < 256 := h a (by simp)
    have hb : b < 256 := h b (by simp)
    have hc : c < 256 := h c (by simp)
    have hrest : ∀ x ∈ rest, x < 256 := fun x hx => h x (by simp [hx])
    have h61a : b64char (b % 16 * 4 + c / 64) ≠ 61 := b64char_ne_61 _ (by omega)
    have h61b : b64char (c % 64) ≠ 61 := b64char_ne_61 _ (by omega)
    have e1 : a / 4 * 4 + (a % 4 * 16 + b / 16) / 16 = a := by omega
    have e2 : (a % 4 * 16 + b / 16) % 16 * 16 + (b % 16 * 4 + c / 64) / 4 = b := by omega
    have e3 : (b % 16 * 4 + c / 64) % 4 * 64 + c % 64 = c := by omega
    simp only [b64encBytes, b64decBytes]
    rw [b64val_b64char _ (by omega), b64val_b64char _ (by omega),
      b64val_b64char _ (by omega), b64val_b64char _ (by omega)]
    simp [h61a, h61b, ih hrest, e1, e2, e3]

/-- Every character emitted by the encoder is padding or an alphabet character. -/
theorem b64enc_mem (l : List Nat) (h : ∀ b ∈ l, b < 256) :
    ∀ c ∈ b64encBytes l, c = 61 ∨ ∃ n, n < 64 ∧ c = b64char n := by
  induction l using b64encBytes.induct with
  | case1 =>
    simp [b64encBytes]
  | case2 a =>
    have ha : a < 256 := h a (by simp)
    intro c hc
    simp only [b64encBytes, List.mem_cons, List.not_mem_nil, or_false] at hc
    rcases hc with hc | hc | hc | hc
    · exact Or.inr ⟨a / 4, by omega, hc⟩
    · exact Or.inr ⟨a % 4 * 16, by omega, hc⟩
    · exact Or.inl hc
    · exact Or.inl hc
  | case3 a b =>
    have ha : a < 256 := h a (by simp)
    have hb : b < 256 := h b (by simp)
    intro c hc
    simp only [b64encBytes, List.mem_cons, List.not_mem_nil, or_false] at hc
    rcases hc with hc | hc | hc | hc
    · exact Or.inr ⟨a / 4, by omega, hc⟩
    · exact Or.inr ⟨a % 4 * 16 + b / 16, by omega, hc⟩
    · exact Or.inr ⟨b % 16 * 4, by omega, hc⟩
    · exact Or.inl hc
  | case4 a b c rest ih =>
    have ha : a < 256 := h a (by simp)
    have hb : b < 256 := h b (by simp)
    have hc2 : c < 256 := h c (by simp)
    have hrest : ∀ x ∈ rest, x < 256 := fun x hx => h x (by simp [hx])
    intro d hd
    simp only [b64encBytes, List.mem_cons] at hd
    rcases hd with hd | hd | hd | hd | hd
    · exact Or.inr ⟨a / 4, by omega, hd⟩
    · exact Or.inr ⟨a % 4 * 16 + b / 16, by omega, hd⟩
    · exact Or.inr ⟨b % 16 * 4 + c / 64, by omega, hd⟩
    · exact Or.inr ⟨c % 64, by omega, hd⟩
    · exact ih hrest d hd

/-- Encoder output bytes are small ASCII, are not ".", and are not
congruent to 63 modulo 64 (so re-encoding such bytes never produces "_"). -/
theorem b64enc_bytes_ok (l : List Nat) (h : ∀ b ∈ l, b < 256) :
    ∀ c ∈ b64encBytes l, c < 128 ∧ c % 64 ≠ 63 ∧ c ≠ 46 := by
  intro c hc
  rcases b64enc_mem l h c hc with h61 | ⟨n, hn, he⟩
  · subst h61; exact ⟨by omega, by omega, by omega⟩
  · subst he
    exact ⟨by have := b64char_lt n hn; omega, b64char_mod64 n hn, b64char_ne_46 n hn⟩

/-- When no input byte is congruent to 63 modulo 64 and all are ASCII, the
sextets fed to the alphabet are never 63, so "_" (code 95) never appears in
the encoding. This is the fact that makes the "=" to "_" substitution of
encrypt_filename reversible on Fernet tokens. -/
theorem b64enc_no95 (l : List Nat) (h : ∀ b ∈ l, b < 128 ∧ b % 64 ≠ 63) :
    ∀ c ∈ b64encBytes l, c ≠ 95 := by
  induction l using b64encBytes.induct with
  | case1 =>
    simp [b64encBytes]
  | case2 a =>
    have ha := h a (by simp)
    intro c hc
    simp only [b64encBytes, List.mem_cons, List.not_mem_nil, or_false] at hc
    rcases hc with hc | hc | hc | hc
    · exact hc ▸ b64char_ne_95 _ (by omega) (by omega)
    · exact hc ▸ b64char_ne_95 _ (by omega) (by omega)
    · omega
    · omega
  | case3 a b =>
    have ha := h a (by simp)
    have hb := h b (by simp)
    intro c hc
    simp only [b64encBytes, List.mem_cons, List.not_mem_nil, or_false] at hc
    rcases hc with hc | hc | hc | hc
    · exact hc ▸ b64char_ne_95 _ (by omega) (by omega)
    · exact hc ▸ b64char_ne_95 _ (by omega) (by omega)
    · exact hc ▸ b64char_ne_95 _ (by omega) (by omega)
    · omega
  | case4 a b c rest ih =>
    have ha := h a (by simp)
    have hb := h b (by simp)
    have hc2 := h c (by simp)
    have hrest : ∀ x ∈ rest, x < 128 ∧ x % 64 ≠ 63 := fun x hx => h x (by simp [hx])
    intro d hd
    simp only [b64encBytes, List.mem_cons] at hd
    rcases hd with hd | hd | hd | hd | hd
    · exact hd ▸ b64char_ne_95 _ (by omega) (by omega)
    · exact hd ▸ b64char_ne_95 _ (by omega) (by omega)
    · exact hd ▸ b64char_ne_95 _ (by omega) (by omega)
    · exact hd ▸ b64char_ne_95 _ (by omega) (by omega)
    · exact ih hrest d hd

/-- Filesystem-safe encoding of a token: base64url then "=" replaced by "_",
the encoding step of encrypt_filename (src/utils/encryption.py lines 48-50). -/
def encodeName (t : Bytes) : Bytes :=
  (b64encBytes t).map (fun c => if c = 61 then 95 else c)

/-- Inverse decoding: "_" replaced by "=" then base64url decode, the decoding
step of decrypt_filename (src/utils/decryption.py lines 30-31). -/
def decodeName (s : Bytes) : Option Bytes :=
  b64decBytes (s.map (fun c => if c = 95 then 61 else c))

theorem map_sub95_sub61 (l : List Nat) (h : ∀ c ∈ l, c ≠ 95) :
    ((l.map fun c => if c = 61 then 95 else c).map fun c => if c = 95 then 61 else c) = l := by
  induction l with
  | nil => simp
  | cons x xs ih =>
    have hx : x ≠ 95 := h x (by simp)
    have hxs : ∀ c ∈ xs, c ≠ 95 := fun c hc => h c (by simp [hc])
    by_cases h61 : x = 61
    · subst h61
      simp [ih hxs]
    · simp [h61, hx, ih hxs]

/-- Name round-trip on byte sequences whose bytes are ASCII and never 63
modulo 64, which covers every Fernet token. -/
theorem decodeName_encodeName (t : Bytes) (h : ∀ b ∈ t, b < 128 ∧ b % 64 ≠ 63) :
    decodeName (encodeName t) = some t := by
  unfold decodeName encodeName
  rw [map_sub95_sub61 _ (b64enc_no95 t h)]
  exact b64_roundtrip t (fun b hb => by have := h b hb; omega)

/-- Encoded names never contain "=" (code 61). -/
theorem encodeName_no61 (t : Bytes) : ∀ c ∈ encodeName t, c ≠ 61 := by
  intro c hc
  simp only [encodeName, List.mem_map] at hc
  rcases hc with ⟨a, _, ha⟩
  by_cases h61 : a = 61
  · subst h61; simp at ha; omega
  · simp [h61] at ha; omega

/-- Encoded names never contain "." (code 46). -/
theorem encodeName_no46 (t : Bytes) (h : ∀ b ∈ t, b < 256) :
    ∀ c ∈ encodeName t, c ≠ 46 := by
  intro c hc
  simp only [encodeName, List.mem_map] at hc
  rcases hc with ⟨a, hmem, ha⟩
  have hok := b64enc_bytes_ok t h a hmem
  by_cases h61 : a = 61
  · subst h61; simp at ha; omega
  · simp [h61] at ha; omega

/-- Key derivation of generate_key_from_password (src/utils/encryption.py
lines 22-23): base64url encoding of the SHA-256 digest of the password bytes.
SHA-256 itself lives in hashlib, outside src/, so it is passed as an abstract
function parameter; every theorem that needs collision-freeness assumes it. -/
def generate_key_from_password (hash : Bytes → Bytes) (password : Bytes) : Bytes :=
  b64encBytes (hash password)

/-- Modelled from the spec: CipherTransform seal (section 4.2). The Fernet
library is outside src/; the spec requires an authenticated, self-contained
token embedding a fresh nonce, base64url encoded on the wire. The idealized
record is a self-delimiting packing of the sealing key, the nonce and the
payload, and the token is its base64url encoding, so that a token consists
solely of base64url alphabet and padding characters as a real Fernet token
does. -/
def fernetEncrypt (key : Bytes) (nonce : Nat) (payload : Bytes) : Bytes :=
  b64encBytes
    (List.replicate key.length 1 ++ 0 :: (key ++ (List.replicate nonce 1 ++ 0 :: payload)))

/-- Length of a self-delimiting unary run: reads 1-bytes up to a 0 separator. -/
def splitUnary : List Nat → Option (Nat × List Nat)
  | [] => none
  | c :: rest =>
    if c = 0 then some (0, rest)
    else if c = 1 then (splitUnary rest).map (fun p => (p.1 + 1, p.2))
    else none

/-- Modelled from the spec: CipherTransform open (section 4.2). Decodes the
wire token, re-reads the embedded record, and fails closed unless the
embedded key equals the supplied key (the idealization of the HMAC check:
wrong key or malformed token yields none, never altered plaintext). -/
def fernetDecrypt (key token : Bytes) : Option Bytes :=
  match b64decBytes token with
  | none => none
  | some raw =>
    match splitUnary raw with
    | none => none
    | some kl =>
      if kl.1 ≤ kl.2.length ∧ List.take kl.1 kl.2 = key then
        match splitUnary (List.drop kl.1 kl.2) with
        | none => none
        | some np => some np.2
      else none

theorem splitUnary_replicate (n : Nat) (t : List Nat) :
    splitUnary (List.replicate n 1 ++ 0 :: t) = some (n, t) := by
  induction n with
  | zero => simp [splitUnary]
  | succ k ih => simp [List.replicate_succ, splitUnary, ih]

theorem take_len_append (l1 l2 : List Nat) : List.take l1.length (l1 ++ l2) = l1 := by
  induction l1 with
  | nil => simp
  | cons x xs ih => simp [ih]

theorem drop_len_append (l1 l2 : List Nat) : List.drop l1.length (l1 ++ l2) = l2 := by
  induction l1 with
  | nil => simp
  | cons x xs ih => simp [ih]

/-- Bytes of the raw record are below 256 whenever key and payload bytes are. -/
theorem record_bytes_lt (key : Bytes) (nonce : Nat) (payload : Bytes)
    (hk : ∀ b ∈ key, b < 256) (hp : ∀ b ∈ payload, b < 256) :
    ∀ b ∈ List.replicate key.length 1 ++ 0 ::
      (key ++ (List.replicate nonce 1 ++ 0 :: payload)), b < 256 := by
  intro b hb
  simp only [List.mem_append, List.mem_cons, List.mem_replicate] at hb
  rcases hb with ⟨_, h1⟩ | h0 | hk2 | ⟨_, h1⟩ | h0 | hp2
  · omega
  · omega
  · exact hk b hk2
  · omega
  · omega
  · exact hp b hp2

/-- Opening a sealed token under the sealing key recovers the payload. -/
theorem fernet_roundtrip (key : Bytes) (nonce : Nat) (payload : Bytes)
    (hk : ∀ b ∈ key, b < 256) (hp : ∀ b ∈ payload, b < 256) :
    fernetDecrypt key (fernetEncrypt key nonce payload) = some payload := by
  unfold fernetDecrypt fernetEncrypt
  rw [b64_roundtrip _ (record_bytes_lt key nonce payload hk hp)]
  simp [splitUnary_replicate, take_len_append, drop_len_append]

/-- Opening a sealed token under a different key fails closed. -/
theorem fernet_wrong_key (key1 key2 : Bytes) (nonce : Nat) (payload : Bytes)
    (hk : ∀ b ∈ key1, b < 256) (hp : ∀ b ∈ payload, b < 256)
    (hne : key1 ≠ key2) :
    fernetDecrypt key2 (fernetEncrypt key1 nonce payload) = none := by
  unfold fernetDecrypt fernetEncrypt
  rw [b64_roundtrip _ (record_bytes_lt key1 nonce payload hk hp)]
  simp [splitUnary_replicate, take_len_append, hne]

/-- Token bytes are ASCII and never congruent to 63 modulo 64, hence safe
for the "=" to "_" name substitution. -/
theorem token_bytes_ok (key : Bytes) (nonce : Nat) (payload : Bytes)
    (hk : ∀ b ∈ key, b < 256) (hp : ∀ b ∈ payload, b < 256) :
    ∀ c ∈ fernetEncrypt key nonce payload, c < 128 ∧ c % 64 ≠ 63 := by
  intro c hc
  have := b64enc_bytes_ok _ (record_bytes_lt key nonce payload hk hp) c hc
  exact ⟨this.1, this.2.1⟩

/-- Token bytes are below 256. -/
theorem token_bytes_lt (key : Bytes) (nonce : Nat) (payload : Bytes)
    (hk : ∀ b ∈ key, b < 256) (hp : ∀ b ∈ payload, b < 256) :
    ∀ c ∈ fernetEncrypt key nonce payload, c < 256 := by
  intro c hc
  have := token_bytes_ok key nonce payload hk hp c hc
  omega

/-- Derived keys consist of ASCII bytes. -/
theorem key_bytes_lt (hash : Bytes → Bytes) (password : Bytes)
    (hh : ∀ b ∈ hash password, b < 256) :
    ∀ b ∈ generate_key_from_password hash password, b < 256 := by
  intro b hb
  have := b64enc_bytes_ok _ hh b hb
  omega

/-- Distinct digests yield distinct derived keys, because base64url encoding
is injective on byte sequences. -/
theorem generate_key_inj (hash : Bytes → Bytes) (p1 p2 : Bytes)
    (h1 : ∀ b ∈ hash p1, b < 256) (h2 : ∀ b ∈ hash p2, b < 256)
    (hne : hash p1 ≠ hash p2) :
    generate_key_from_password hash p1 ≠ generate_key_from_password hash p2 := by
  intro hcon
  apply hne
  have e1 := b64_roundtrip (hash p1) h1
  have e2 := b64_roundtrip (hash p2) h2
  rw [generate_key_from_password, generate_key_from_password] at hcon
  rw [hcon] at e1
  rw [e2] at e1
  injection e1 with e
  exact e.symm

/-- Byte sequence of the literal extension ".kubli". -/
def kubliSuffix : Bytes := [46, 107, 117, 98, 108, 105]

/-- Filename sealing plus filesystem-safe encoding, encrypt_filename
(src/utils/encryption.py lines 26-54). The filename string is represented
by its UTF-8 bytes, so .encode() is the identity here. -/
def encrypt_filename (filename key : Bytes) (nonce : Nat) : Option Bytes :=
  some (encodeName (fernetEncrypt key nonce filename))

/-- Name decoding plus token opening, decrypt_filename
(src/utils/decryption.py lines 9-36). -/
def decrypt_filename (enc key : Bytes) : Option Bytes :=
  match decodeName enc with
  | none => none
  | some tok => fernetDecrypt key tok

/-- Python str.replace(".kubli", "") on a byte string: removes every
non-overlapping occurrence of the 6-byte pattern, scanning left to right,
as used on the artifact basename (src/utils/decryption.py line 67). -/
def stripKubli : List Nat → List Nat
  | [] => []
  | 46 :: 107 :: 117 :: 98 :: 108 :: 105 :: rest => stripKubli rest
  | x :: xs => x :: stripKubli xs

/-- Single-file encryption, encrypt_file (src/utils/encryption.py lines
57-100). The model works in one directory, so a path is its basename; the
two nonce arguments stand for the fresh randomness of the two seal calls.
Returns the new directory state and the success flag; every caught
exception of the source becomes a false flag with the directory unchanged
up to the writes already performed (the only write is the final one). -/
def encrypt_file (fs : FS) (key : Bytes) (n1 n2 : Nat) (path : Bytes) : FS × Bool :=
  match fsRead fs path with
  | none => (fs, false)
  | some data =>
    match encrypt_filename path key n2 with
    | none => (fs, false)
    | some encName =>
      (fsWrite fs (encName ++ kubliSuffix) (fernetEncrypt key n1 data), true)

/-- Single-file decryption, decrypt_file (src/utils/decryption.py lines
39-83): read the artifact, open the body, strip ".kubli" from the name,
decode and open the name, then write the recovered file. -/
def decrypt_file (fs : FS) (key : Bytes) (path : Bytes) : FS × Bool :=
  match fsRead fs path with
  | none => (fs, false)
  | some encData =>
    match fernetDecrypt key encData with
    | none => (fs, false)
    | some decData =>
      match decrypt_filename (stripKubli path) key with
      | none => (fs, false)
      | some origName => (fsWrite fs origName decData, true)

theorem fsRead_fsWrite_self (fs : FS) (n c : Bytes) :
    fsRead (fsWrite fs n c) n = some c := by
  induction fs with
  | nil => simp [fsWrite, fsRead]
  | cons p rest ih =>
    by_cases hp : p.1 = n
    · simp [fsWrite, hp, fsRead]
    · simp [fsWrite, hp, fsRead, ih]

theorem fsRead_fsWrite_ne (fs : FS) (n c m : Bytes) (h : m ≠ n) :
    fsRead (fsWrite fs n c) m = fsRead fs m := by
  induction fs with
  | nil => simp [fsWrite, fsRead, Ne.symm h]
  | cons p rest ih =>
    obtain ⟨a, b⟩ := p
    by_cases ha : a = n
    · subst ha
      simp [fsWrite, fsRead, Ne.symm h]
    · simp [fsWrite, fsRead, ha, ih]

theorem fsWrite_not_mem (fs : FS) (n c : Bytes) (h : ¬ n ∈ fs.map Prod.fst) :
    fsWrite fs n c = fs ++ [(n, c)] := by
  induction fs with
  | nil => simp [fsWrite]
  | cons p rest ih =>
    simp only [List.map_cons, List.mem_cons] at h
    push_neg at h
    simp [fsWrite, Ne.symm h.1, ih h.2]

/-- Stripping ".kubli" from a dot-free base followed by the suffix leaves
the base: the encoded-name alphabet contains no ".", so the only occurrence
of the pattern is the final extension. -/
theorem stripKubli_append (base : List Nat) (h : ∀ c ∈ base, c ≠ 46) :
    stripKubli (base ++ kubliSuffix) = base := by
  induction base with
  | nil =>
    simp [kubliSuffix, stripKubli]
  | cons x xs ih =>
    have hx : x ≠ 46 := h x (by simp)
    have hxs : ∀ c ∈ xs, c ≠ 46 := fun c hc => h c (by simp [hc])
    simp only [List.cons_append]
    rw [stripKubli.eq_def]
    split
    · simp_all
    · simp_all
    · rename_i heq
      simp only [List.cons.injEq] at heq
      rw [← heq.1, ← heq.2, ih hxs]

/-- Byte sequence of "kubli.py". -/
def kubliPy : Bytes := [107, 117, 98, 108, 105, 46, 112, 121]

/-- Byte sequence of ".py". -/
def pySuffix : Bytes := [46, 112, 121]

/-- Byte sequence of "run_tests.py". -/
def runTestsPy : Bytes := [114, 117, 110, 95, 116, 101, 115, 116, 115, 46, 112, 121]

/-- Byte sequence of "encryption.py". -/
def encryptionPy : Bytes := [101, 110, 99, 114, 121, 112, 116, 105, 111, 110, 46, 112, 121]

/-- Byte sequence of "decryption.py". -/
def decryptionPy : Bytes := [100, 101, 99, 114, 121, 112, 116, 105, 111, 110, 46, 112, 121]

/-- Names of the tool's own executable/script and source files as they
appear in the repository. -/
def toolSourceNames : List Bytes := [kubliPy, runTestsPy, encryptionPy, decryptionPy]

/-- Candidate scan of encrypt_directory in src/utils/encryption.py lines
155-162: direct children that are regular files, skipping dotfiles (Python
glob "*" does not match hidden names), files ending in ".kubli", the name
"kubli.py", and every file ending in ".py". -/
def scanEncrypt (fs : FS) : List Bytes :=
  (fs.map Prod.fst).filter (fun n =>
    !(startsWith [46] n) && !(endsWith kubliSuffix n) && !(n == kubliPy)
      && !(endsWith pySuffix n))

/-- Candidate scan of encrypt_directory in src/kubli.py lines 234-240: the
same, except that only the single name "kubli.py" is excluded and other
".py" files are kept. -/
def scanEncryptMain (fs : FS) : List Bytes :=
  (fs.map Prod.fst).filter (fun n =>
    !(startsWith [46] n) && !(endsWith kubliSuffix n) && !(n == kubliPy))

/-- Candidate scan of decrypt_directory (glob "*.kubli"): non-hidden direct
children ending in ".kubli". -/
def scanDecrypt (fs : FS) : List Bytes :=
  (fs.map Prod.fst).filter (fun n => !(startsWith [46] n) && endsWith kubliSuffix n)

/-- Processing loop of encrypt_directory lines 177-185: apply encrypt_file
to every candidate in scan order, threading the directory state and
recording each file's boolean outcome; no outcome aborts the loop. The
nonces function supplies the fresh randomness of each file's seal calls. -/
def runEncryptBatch (key : Bytes) (nonces : Bytes → Nat × Nat) :
    FS → List Bytes → FS × List (Bytes × Bool)
  | fs, [] => (fs, [])
  | fs, f :: rest =>
    let r := encrypt_file fs key (nonces f).1 (nonces f).2 f
    let q := runEncryptBatch key nonces r.1 rest
    (q.1, (f, r.2) :: q.2)

/-- Processing loop of decrypt_directory lines 159-167. -/
def runDecryptBatch (key : Bytes) : FS → List Bytes → FS × List (Bytes × Bool)
  | fs, [] => (fs, [])
  | fs, f :: rest =>
    let r := decrypt_file fs key f
    let q := runDecryptBatch key r.1 rest
    (q.1, (f, r.2) :: q.2)

/-- Python os.remove of one name. -/
def fsRemove : FS → Bytes → FS
  | [], _ => []
  | p :: rest, n => if p.1 = n then rest else p :: fsRemove rest n

/-- Names of the files whose transform succeeded, in scan order, matching
the successful_encryptions/successful_decryptions accumulator. -/
def successNames (outcomes : List (Bytes × Bool)) : List Bytes :=
  (outcomes.filter (fun o => o.2)).map Prod.fst

/-- Interactive batch encryption, encrypt_directory
(src/utils/encryption.py lines 103-202). Prompted inputs become arguments:
the password, the confirmation response and the delete-confirmation
response (as raw bytes, lowered as the code does); the scanned directory is
the FS argument. Early exits return the directory unchanged and no count;
a completed batch returns the final state and the reported count of
successful encryptions. -/
def encrypt_directory (hash : Bytes → Bytes) (password : Bytes) (fs : FS)
    (confirm deleteConfirm : Bytes) (nonces : Bytes → Nat × Nat) : FS × Option Nat :=
  if password = [] then (fs, none)
  else
    let key := generate_key_from_password hash password
    let files := scanEncrypt fs
    if files = [] then (fs, none)
    else if List.map lowerAscii confirm ≠ [121] then (fs, none)
    else
      let r := runEncryptBatch key nonces fs files
      let succ := successNames r.2
      let fs2 := if succ ≠ [] ∧ List.map lowerAscii deleteConfirm = [121]
        then List.foldl fsRemove r.1 succ else r.1
      (fs2, some succ.length)

/-- Interactive batch decryption, decrypt_directory
(src/utils/decryption.py lines 86-184), same conventions; the preview loop
before the confirmation only prints and is not modelled. -/
def decrypt_directory (hash : Bytes → Bytes) (password : Bytes) (fs : FS)
    (confirm deleteConfirm : Bytes) : FS × Option Nat :=
  if password = [] then (fs, none)
  else
    let key := generate_key_from_password hash password
    let files := scanDecrypt fs
    if files = [] then (fs, none)
    else if List.map lowerAscii confirm ≠ [121] then (fs, none)
    else
      let r := runDecryptBatch key fs files
      let succ := successNames r.2
      let fs2 := if succ ≠ [] ∧ List.map lowerAscii deleteConfirm = [121]
        then List.foldl fsRemove r.1 succ else r.1
      (fs2, some succ.length)

/-- Decoding and opening the encoded sealed filename recovers the filename. -/
theorem decrypt_filename_encodeName (key name : Bytes) (nonce : Nat)
    (hk : ∀ b ∈ key, b < 256) (hn : ∀ b ∈ name, b < 256) :
    decrypt_filename (encodeName (fernetEncrypt key nonce name)) key = some name := by
  unfold decrypt_filename
  rw [decodeName_encodeName _ (token_bytes_ok key nonce name hk hn)]
  exact fernet_roundtrip key nonce name hk hn

/-- Decrypting a well-formed artifact writes the recovered file and succeeds. -/
theorem decrypt_artifact (fs : FS) (key name content : Bytes) (n1 n2 : Nat)
    (hk : ∀ b ∈ key, b < 256) (hn : ∀ b ∈ name, b < 256) (hc : ∀ b ∈ content, b < 256)
    (hread : fsRead fs (encodeName (fernetEncrypt key n2 name) ++ kubliSuffix)
      = some (fernetEncrypt key n1 content)) :
    decrypt_file fs key (encodeName (fernetEncrypt key n2 name) ++ kubliSuffix)
      = (fsWrite fs name content, true) := by
  simp only [decrypt_file, hread]
  simp only [fernet_roundtrip key n1 content hk hc]
  rw [stripKubli_append _ (encodeName_no46 _ (token_bytes_lt key n2 name hk hn))]
  simp only [decrypt_filename_encodeName key name n2 hk hn]

/-- Encrypting a readable file writes the artifact and succeeds. -/
theorem encrypt_file_eq (fs : FS) (key name content : Bytes) (n1 n2 : Nat)
    (hread : fsRead fs name = some content) :
    encrypt_file fs key n1 n2 name
      = (fsWrite fs (encodeName (fernetEncrypt key n2 name) ++ kubliSuffix)
          (fernetEncrypt key n1 content), true) := by
  simp only [encrypt_file, hread, encrypt_filename]

/-- Every candidate of an encrypt batch receives exactly one outcome, in
scan order. -/
theorem runEncryptBatch_fst (key : Bytes) (nonces : Bytes → Nat × Nat) :
    ∀ files fs, ((runEncryptBatch key nonces fs files).2).map Prod.fst = files := by
  intro files
  induction files with
  | nil => intro fs; simp [runEncryptBatch]
  | cons f rest ih => intro fs; simp [runEncryptBatch, ih]

/-- Every candidate of a decrypt batch receives exactly one outcome, in
scan order. -/
theorem runDecryptBatch_fst (key : Bytes) :
    ∀ files fs, ((runDecryptBatch key fs files).2).map Prod.fst = files := by
  intro files
  induction files with
  | nil => intro fs; simp [runDecryptBatch]
  | cons f rest ih => intro fs; simp [runDecryptBatch, ih]

/-- C1: encrypting a file (filename and content bytes) under the key
derived from a non-empty password and then decrypting the produced .kubli
artifact under the same key succeeds and reproduces the original filename
and the original content bytes exactly: the decrypted filename equals the
source name and reading that name back yields the source content. -/
theorem C1_encrypt_decrypt_roundtrip (hash : Bytes → Bytes) (password : Bytes)
    (fs : FS) (name content key art : Bytes) (n1 n2 : Nat)
    (hpw : password ≠ [])
    (hh : ∀ b ∈ hash password, b < 256)
    (hn : ∀ b ∈ name, b < 256) (hc : ∀ b ∈ content, b < 256)
    (hkey : key = generate_key_from_password hash password)
    (hart : art = encodeName (fernetEncrypt key n2 name) ++ kubliSuffix)
    (hread : fsRead fs name = some content) :
    encrypt_file fs key n1 n2 name
      = (fsWrite fs art (fernetEncrypt key n1 content), true)
    ∧ decrypt_filename (stripKubli art) key = some name
    ∧ decrypt_file (fsWrite fs art (fernetEncrypt key n1 content)) key art
      = (fsWrite (fsWrite fs art (fernetEncrypt key n1 content)) name content, true)
    ∧ fsRead (decrypt_file (fsWrite fs art (fernetEncrypt key n1 content)) key art).1 name
      = some content := by
  subst hart
  subst hkey
  have hk := key_bytes_lt hash password hh
  have henc := encrypt_file_eq fs (generate_key_from_password hash password)
    name content n1 n2 hread
  have hdec := decrypt_artifact
    (fsWrite fs
      (encodeName (fernetEncrypt (generate_key_from_password hash password) n2 name)
        ++ kubliSuffix)
      (fernetEncrypt (generate_key_from_password hash password) n1 content))
    (generate_key_from_password hash password) name content n1 n2 hk hn hc
    (fsRead_fsWrite_self _ _ _)
  refine ⟨henc, ?_, hdec, ?_⟩
  · rw [stripKubli_append _ (encodeName_no46 _ (token_bytes_lt _ n2 name hk hn))]
    exact decrypt_filename_encodeName _ name n2 hk hn
  · rw [hdec]
    exact fsRead_fsWrite_self _ name content

/-- C2: for every token producible by seal (a Fernet token), decoding the
encoded filesystem-safe name yields the token back, and the encoded name
contains no "=" character (code 61). -/
theorem C2_name_codec_roundtrip (key : Bytes) (nonce : Nat) (payload : Bytes)
    (hk : ∀ b ∈ key, b < 256) (hp : ∀ b ∈ payload, b < 256) :
    decodeName (encodeName (fernetEncrypt key nonce payload))
      = some (fernetEncrypt key nonce payload)
    ∧ ¬ 61 ∈ encodeName (fernetEncrypt key nonce payload) :=
  ⟨decodeName_encodeName _ (token_bytes_ok key nonce payload hk hp),
   fun hmem => encodeName_no61 _ 61 hmem rfl⟩

/-- C3: for every non-empty password and every byte payload, including the
empty sequence, opening under the derived key a token sealed under the same
derived key returns exactly the payload. -/
theorem C3_seal_open_roundtrip (hash : Bytes → Bytes) (password payload : Bytes)
    (nonce : Nat) (hpw : password ≠ [])
    (hh : ∀ b ∈ hash password, b < 256) (hp : ∀ b ∈ payload, b < 256) :
    fernetDecrypt (generate_key_from_password hash password)
      (fernetEncrypt (generate_key_from_password hash password) nonce payload)
      = some payload :=
  fernet_roundtrip _ nonce payload (key_bytes_lt hash password hh) hp

/-- C4: decrypting an artifact sealed under the key of password P1 with the
key of a distinct password P2 (digests differing, the spec's negligible
collision caveat) returns the failure outcome and leaves the directory
exactly as it was: no file is written and none is removed. -/
theorem C4_wrong_key_fails (hash : Bytes → Bytes) (p1 p2 : Bytes) (fs : FS)
    (path content : Bytes) (nonce : Nat)
    (hne : p1 ≠ p2)
    (h1 : ∀ b ∈ hash p1, b < 256) (h2 : ∀ b ∈ hash p2, b < 256)
    (hc : ∀ b ∈ content, b < 256)
    (hcoll : hash p1 ≠ hash p2)
    (hread : fsRead fs path
      = some (fernetEncrypt (generate_key_from_password hash p1) nonce content)) :
    decrypt_file fs (generate_key_from_password hash p2) path = (fs, false) := by
  simp only [decrypt_file, hread]
  simp only [fernet_wrong_key _ _ nonce content (key_bytes_lt hash p1 h1) hc
    (generate_key_inj hash p1 p2 h1 h2 hcoll)]

/-- C9: key derivation is a pure deterministic function of the password,
and distinct passwords whose digests differ (no hash collision) derive
distinct keys. -/
theorem C9_key_derivation (hash : Bytes → Bytes) (p1 p2 : Bytes)
    (h1 : ∀ b ∈ hash p1, b < 256) (h2 : ∀ b ∈ hash p2, b < 256)
    (hne : p1 ≠ p2) (hcoll : hash p1 ≠ hash p2) :
    generate_key_from_password hash p1 = generate_key_from_password hash p1
    ∧ generate_key_from_password hash p1 ≠ generate_key_from_password hash p2 :=
  ⟨rfl, generate_key_inj hash p1 p2 h1 h2 hcoll⟩

/-- C10: when a file of the recovered original name already exists,
decrypt_file silently overwrites its content and still reports success, and
encrypt_file likewise overwrites an existing artifact of the same encoded
name; no conflict is reported at the interface. -/
theorem C10_silent_overwrite (fs : FS) (key origName newContent oldContent : Bytes)
    (n1 n2 : Nat)
    (hk : ∀ b ∈ key, b < 256) (hn : ∀ b ∈ origName, b < 256)
    (hc : ∀ b ∈ newContent, b < 256)
    (hart : fsRead fs (encodeName (fernetEncrypt key n2 origName) ++ kubliSuffix)
        = some (fernetEncrypt key n1 newContent))
    (hexist : fsRead fs origName = some oldContent) :
    decrypt_file fs key (encodeName (fernetEncrypt key n2 origName) ++ kubliSuffix)
      = (fsWrite fs origName newContent, true)
    ∧ fsRead (fsWrite fs origName newContent) origName = some newContent
    ∧ (∀ fs2 name content old : _, ∀ m1 m2 : Nat, fsRead fs2 name = some content →
        fsRead fs2 (encodeName (fernetEncrypt key m2 name) ++ kubliSuffix) = some old →
        encrypt_file fs2 key m1 m2 name
          = (fsWrite fs2 (encodeName (fernetEncrypt key m2 name) ++ kubliSuffix)
              (fernetEncrypt key m1 content), true)
        ∧ fsRead (fsWrite fs2 (encodeName (fernetEncrypt key m2 name) ++ kubliSuffix)
              (fernetEncrypt key m1 content))
            (encodeName (fernetEncrypt key m2 name) ++ kubliSuffix)
          = some (fernetEncrypt key m1 content)) := by
  refine ⟨decrypt_artifact fs key origName newContent n1 n2 hk hn hc hart,
    fsRead_fsWrite_self fs origName newContent, ?_⟩
  intro fs2 name content old m1 m2 hread hold
  exact ⟨encrypt_file_eq fs2 key name content m1 m2 hread,
    fsRead_fsWrite_self fs2 _ _⟩

/-- C5: in both batch directions every candidate is processed and receives
exactly one recorded outcome in scan order (a per-file failure is a false
flag, never an abort), and the reported final count equals the number of
candidates whose transform succeeded. -/
theorem C5_batch_isolation_and_count (hash : Bytes → Bytes) (password : Bytes)
    (fs : FS) (confirm dc : Bytes) (nonces : Bytes → Nat × Nat)
    (hpw : password ≠ []) (hconf : List.map lowerAscii confirm = [121]) :
    ((runEncryptBatch (generate_key_from_password hash password) nonces fs
        (scanEncrypt fs)).2).map Prod.fst = scanEncrypt fs
    ∧ ((runDecryptBatch (generate_key_from_password hash password) fs
        (scanDecrypt fs)).2).map Prod.fst = scanDecrypt fs
    ∧ (scanEncrypt fs ≠ [] →
        (encrypt_directory hash password fs confirm dc nonces).2
          = some (successNames ((runEncryptBatch (generate_key_from_password hash password)
              nonces fs (scanEncrypt fs)).2)).length)
    ∧ (scanDecrypt fs ≠ [] →
        (decrypt_directory hash password fs confirm dc).2
          = some (successNames ((runDecryptBatch (generate_key_from_password hash password)
              fs (scanDecrypt fs)).2)).length) := by
  refine ⟨runEncryptBatch_fst _ _ _ fs, runDecryptBatch_fst _ _ fs, ?_, ?_⟩
  · intro hscan
    simp [encrypt_directory, hpw, hscan, hconf]
  · intro hscan
    simp [decrypt_directory, hpw, hscan, hconf]

/-- C6: a batch in which the confirmation response is anything but an
affirmative "y" terminates with zero side effects: the directory is
returned byte-for-byte unchanged and no count is reported, in both the
encrypt and the decrypt direction. -/
theorem C6_cancel_zero_side_effects (hash : Bytes → Bytes) (password : Bytes)
    (fs : FS) (confirm dc : Bytes) (nonces : Bytes → Nat × Nat)
    (hpw : password ≠ []) (hconf : List.map lowerAscii confirm ≠ [121]) :
    (scanEncrypt fs ≠ [] →
      encrypt_directory hash password fs confirm dc nonces = (fs, none))
    ∧ (scanDecrypt fs ≠ [] →
      decrypt_directory hash password fs confirm dc = (fs, none)) := by
  constructor
  · intro hscan
    simp [encrypt_directory, hpw, hscan, hconf]
  · intro hscan
    simp [decrypt_directory, hpw, hscan, hconf]

/-- C7: one encrypt_file call creates exactly one new file, named by the
encoded sealed filename followed by ".kubli" in the same directory, and
neither modifies nor deletes any pre-existing file (in particular the
source); deletion of sources happens only in the orchestrator's separate
step guarded by its own affirmative confirmation. -/
theorem C7_encrypt_creates_one_artifact (fs : FS) (key name content art : Bytes)
    (n1 n2 : Nat)
    (hread : fsRead fs name = some content)
    (hart : art = encodeName (fernetEncrypt key n2 name) ++ kubliSuffix)
    (hnew : ¬ art ∈ List.map Prod.fst fs) :
    encrypt_file fs key n1 n2 name = (fs ++ [(art, fernetEncrypt key n1 content)], true)
    ∧ (∀ m, m ≠ art → fsRead (encrypt_file fs key n1 n2 name).1 m = fsRead fs m)
    ∧ (∀ hash : Bytes → Bytes, ∀ password fs0 confirm dc : _,
        ∀ nonces : Bytes → Nat × Nat,
        password ≠ [] → scanEncrypt fs0 ≠ [] →
        List.map lowerAscii confirm = [121] → List.map lowerAscii dc ≠ [121] →
        (encrypt_directory hash password fs0 confirm dc nonces).1
          = (runEncryptBatch (generate_key_from_password hash password) nonces fs0
              (scanEncrypt fs0)).1) := by
  subst hart
  have henc := encrypt_file_eq fs key name content n1 n2 hread
  refine ⟨?_, ?_, ?_⟩
  · rw [henc, fsWrite_not_mem fs _ _ hnew]
  · intro m hm
    rw [henc]
    exact fsRead_fsWrite_ne fs _ _ m hm
  · intro hash password fs0 confirm dc nonces hpw hscan hcf hdc
    simp [encrypt_directory, hpw, hscan, hcf, hdc]

/-- C8 (amended): the utils/encryption.py scan keeps only direct children
of the directory and excludes every ".kubli" file, "kubli.py", and every
".py" file, hence all of the tool's own source files; the kubli.py scan
keeps only direct children and excludes every ".kubli" file and the single
name "kubli.py", but no other ".py" source file of the tool. -/
theorem C8_scan_exclusions (fs : FS) (n : Bytes) :
    (n ∈ scanEncrypt fs → n ∈ fs.map Prod.fst
      ∧ endsWith kubliSuffix n = false ∧ ¬ n ∈ toolSourceNames)
    ∧ (n ∈ scanEncryptMain fs → n ∈ fs.map Prod.fst
      ∧ endsWith kubliSuffix n = false ∧ n ≠ kubliPy) := by
  constructor
  · intro hmem
    rw [scanEncrypt, List.mem_filter] at hmem
    obtain ⟨hfs, hpred⟩ := hmem
    simp only [Bool.and_eq_true, Bool.not_eq_true'] at hpred
    refine ⟨hfs, hpred.1.1.2, ?_⟩
    intro htool
    have hpy := hpred.2
    simp only [toolSourceNames, List.mem_cons, List.not_mem_nil, or_false] at htool
    rcases htool with h | h | h | h
    all_goals rw [h] at hpy
    all_goals revert hpy
    all_goals decide
  · intro hmem
    rw [scanEncryptMain, List.mem_filter] at hmem
    obtain ⟨hfs, hpred⟩ := hmem
    simp only [Bool.and_eq_true, Bool.not_eq_true'] at hpred
    refine ⟨hfs, hpred.1.2, ?_⟩
    intro hk
    have := hpred.2
    rw [hk] at this
    simp at this

/-- C8 counterexample: the scan of kubli.py's own encrypt_directory keeps
"run_tests.py", one of the tool's own source files, as a candidate. -/
theorem C8_counterexample :
    runTestsPy ∈ scanEncryptMain [(runTestsPy, [])]
    ∧ runTestsPy ∈ toolSourceNames := by
  decide

theorem C1_witness :
    fsRead (decrypt_file
      (fsWrite [([65], [66])]
        (encodeName (fernetEncrypt (generate_key_from_password (fun l => l) [7]) 0 [65])
          ++ kubliSuffix)
        (fernetEncrypt (generate_key_from_password (fun l => l) [7]) 0 [66]))
      (generate_key_from_password (fun l => l) [7])
      (encodeName (fernetEncrypt (generate_key_from_password (fun l => l) [7]) 0 [65])
        ++ kubliSuffix)).1 [65] = some [66] :=
  (C1_encrypt_decrypt_roundtrip (fun l => l) [7] [([65], [66])] [65] [66]
    (generate_key_from_password (fun l => l) [7])
    (encodeName (fernetEncrypt (generate_key_from_password (fun l => l) [7]) 0 [65])
      ++ kubliSuffix) 0 0 (by decide) (by decide) (by decide) (by decide) rfl rfl
    (by decide)).2.2.2

theorem C2_witness :
    decodeName (encodeName (fernetEncrypt [1] 0 [2])) = some (fernetEncrypt [1] 0 [2]) :=
  (C2_name_codec_roundtrip [1] 0 [2] (by decide) (by decide)).1

theorem C3_witness :
    fernetDecrypt (generate_key_from_password (fun l => l) [7])
      (fernetEncrypt (generate_key_from_password (fun l => l) [7]) 2 []) = some [] :=
  C3_seal_open_roundtrip (fun l => l) [7] [] 2 (by decide) (by decide) (by decide)

theorem C4_witness :
    decrypt_file [([97], fernetEncrypt (generate_key_from_password (fun l => l) [1]) 0 [5])]
      (generate_key_from_password (fun l => l) [2]) [97]
      = ([([97], fernetEncrypt (generate_key_from_password (fun l => l) [1]) 0 [5])], false) :=
  C4_wrong_key_fails (fun l => l) [1] [2]
    [([97], fernetEncrypt (generate_key_from_password (fun l => l) [1]) 0 [5])]
    [97] [5] 0 (by decide) (by decide) (by decide) (by decide) (by decide) (by decide)

theorem C5_witness :
    (encrypt_directory (fun l => l) [7] [([97], [98])] [89] [110] (fun _ => (0, 0))).2
      = some (successNames ((runEncryptBatch (generate_key_from_password (fun l => l) [7])
          (fun _ => (0, 0)) [([97], [98])] (scanEncrypt [([97], [98])])).2)).length :=
  (C5_batch_isolation_and_count (fun l => l) [7] [([97], [98])] [89] [110]
    (fun _ => (0, 0)) (by decide) (by decide)).2.2.1 (by decide)

theorem C6_witness :
    encrypt_directory (fun l => l) [7] [([97], [98])] [110] [121] (fun _ => (0, 0))
      = ([([97], [98])], none) :=
  (C6_cancel_zero_side_effects (fun l => l) [7] [([97], [98])] [110] [121]
    (fun _ => (0, 0)) (by decide) (by decide)).1 (by decide)

theorem C7_witness :
    encrypt_file [([65], [66])] [5] 0 0 [65]
      = ([([65], [66])] ++ [((encodeName (fernetEncrypt [5] 0 [65]) ++ kubliSuffix),
          fernetEncrypt [5] 0 [66])], true) :=
  (C7_encrypt_creates_one_artifact [([65], [66])] [5] [65] [66]
    (encodeName (fernetEncrypt [5] 0 [65]) ++ kubliSuffix) 0 0
    (by decide) rfl (by decide)).1

theorem C8_witness :
    ([97] : Bytes) ∈ List.map Prod.fst [(([97] : Bytes), ([] : Bytes))]
    ∧ endsWith kubliSuffix [97] = false ∧ ¬ ([97] : Bytes) ∈ toolSourceNames :=
  (C8_scan_exclusions [([97], [])] [97]).1 (by decide)

theorem C9_witness :
    generate_key_from_password (fun l => l) [0] = generate_key_from_password (fun l => l) [0]
    ∧ generate_key_from_password (fun l => l) [0] ≠ generate_key_from_password (fun l => l) [1] :=
  C9_key_derivation (fun l => l) [0] [1] (by decide) (by decide) (by decide) (by decide)

theorem C10_witness :
    decrypt_file [([65], [1]), ((encodeName (fernetEncrypt [5] 0 [65]) ++ kubliSuffix),
        fernetEncrypt [5] 0 [2])] [5]
      (encodeName (fernetEncrypt [5] 0 [65]) ++ kubliSuffix)
      = (fsWrite [([65], [1]), ((encodeName (fernetEncrypt [5] 0 [65]) ++ kubliSuffix),
          fernetEncrypt [5] 0 [2])] [65] [2], true) :=
  (C10_silent_overwrite [([65], [1]), ((encodeName (fernetEncrypt [5] 0 [65]) ++ kubliSuffix),
      fernetEncrypt [5] 0 [2])] [5] [65] [2] [1] 0 0
    (by decide) (by decide) (by decide) (by decide) (by decide)).1

end Kubli
